import Mathlib

/-!
Shallow embedding of the bit-puzzle functions of `src/bits.c`.

A 32-bit machine word is modelled as a `Nat` below `2 ^ 32`, holding the word's
bit pattern.  C bitwise operators on `int`/`unsigned` map to the `Nat` bitwise
operators; results of left shifts and of additions are reduced modulo `2 ^ 32`
where the C computation wraps.  The C signed right shift (which on the source's
platform is the arithmetic, sign-extending shift) is modelled by `sar`; the C
complement operator is modelled by `not32`; the C logical-not operator is
modelled by `bang`.
-/

namespace Bits

/-- C bitwise complement on a 32-bit word: flip the low 32 bits. -/
def not32 (x : Nat) : Nat := (2 ^ 32 - 1) ^^^ x

/-- C arithmetic (sign-extending) right shift of a 32-bit word: shift right and
replicate the original sign bit into the vacated high positions. -/
def sar (x n : Nat) : Nat :=
  if x.testBit 31 then (x >>> n) ||| ((2 ^ n - 1) <<< (32 - n)) else x >>> n

/-- C left shift of a 32-bit word, wrapping modulo `2 ^ 32`. -/
def shl32 (x n : Nat) : Nat := (x <<< n) % 2 ^ 32

/-- C logical not: 1 on zero, 0 on any nonzero word. -/
def bang (x : Nat) : Nat := if x = 0 then 1 else 0

/-- bitXor from `src/bits.c`: x ^ y using only complement and AND.
C: and = ~(x & y); nor = ~x & ~y; return and & ~nor. -/
def bitXor (x y : Nat) : Nat :=
  let band := not32 (x &&& y)
  let nor := not32 x &&& not32 y
  band &&& not32 nor

/-- allEvenBits from `src/bits.c`: fold the word onto itself with arithmetic
right shifts by 16, 8, 4, 2 and AND, then extract bit 0. -/
def allEvenBits (x : Nat) : Nat :=
  let x1 := x &&& sar x 16
  let x2 := x1 &&& sar x1 8
  let x3 := x2 &&& sar x2 4
  let x4 := x3 &&& sar x3 2
  x4 &&& 1

/-- logicalShift from `src/bits.c`:
bitmask = (((x & (1 << 31)) >> n) << 1); return (x >> n) ^ bitmask. -/
def logicalShift (x n : Nat) : Nat :=
  let bitmask := shl32 (sar (x &&& shl32 1 31) n) 1
  sar x n ^^^ bitmask

/-- logicalNeg from `src/bits.c`: return ((x | (~x + 1)) >> 31) + 1. -/
def logicalNeg (x : Nat) : Nat :=
  (sar (x ||| (not32 x + 1) % 2 ^ 32) 31 + 1) % 2 ^ 32

/-- tmax from `src/bits.c`: return ~(1 << 31). -/
def tmax : Nat := not32 (shl32 1 31)

/-- twosBits from `src/bits.c`:
shift = (~n + 1) + 32; return !(x ^ ((x << shift) >> shift)). -/
def twosBits (x n : Nat) : Nat :=
  let shift := ((not32 n + 1) % 2 ^ 32 + 32) % 2 ^ 32
  bang (x ^^^ sar (shl32 x shift) shift)

/-- The biased exponent field of an IEEE-754 single-precision bit pattern,
as extracted by `src/bits.c`: (uf >> 23) & 0xFF. -/
def expField (uf : Nat) : Nat := (uf >>> 23) &&& 0xFF

/-- The fraction field of an IEEE-754 single-precision bit pattern,
as extracted by `src/bits.c`: uf & 0x7FFFFF. -/
def fracField (uf : Nat) : Nat := uf &&& 0x7FFFFF

/-- The magnitude computed by the normalized branch of floatFloat2Int in
`src/bits.c` (lines 159-169): result = frac | 0x800000, then
result <<= (e - 23) when e > 23, else result >>= (23 - e), with e = exp - 127. -/
def mantShift (uf : Nat) : Nat :=
  let e : Int := (expField uf : Int) - 127
  let result := fracField uf ||| 0x800000
  if 23 < e then (result <<< (e - 23).toNat) % 2 ^ 32 else result >>> (23 - e).toNat

/-- floatFloat2Int from `src/bits.c`: bit-level equivalent of (int) f for the
single-precision bit pattern uf, with NaN, infinity and out-of-range inputs
mapped to 0x80000000. -/
def floatFloat2Int (uf : Nat) : Nat :=
  if uf = 0 then 0
  else
    let negSign := uf &&& shl32 1 31
    let exp := expField uf
    let e : Int := (exp : Int) - 127
    if exp = 0xFF then 0x80000000
    else if exp = 0 then 0
    else if e < 0 then 0
    else if 31 ≤ e then 0x80000000
    else
      let result := mantShift uf
      if negSign ≠ 0 then (not32 result + 1) % 2 ^ 32
      else if result >>> 31 ≠ 0 then 0x80000000
      else result

/-- Reference definition, following the spec's words: the magnitude of the
IEEE-754 single-precision value encoded by uf, scaled by 2 ^ 149 so that it is
an exact natural number.  A denormalized pattern (exponent field 0) encodes
frac * 2 ^ (-149); a normalized pattern encodes
(2 ^ 23 + frac) * 2 ^ (exponent field - 150). -/
def magScaled (uf : Nat) : Nat :=
  if expField uf = 0 then fracField uf
  else (2 ^ 23 + fracField uf) * 2 ^ (expField uf - 1)

/-- Reference definition, following the spec's words: the signed integer
obtained by truncating the encoded float value toward zero (the fractional
part of magnitude / 2 ^ 149 is discarded, and the sign is applied). -/
def floatValTrunc (uf : Nat) : Int :=
  if uf.testBit 31 then -(magScaled uf / 2 ^ 149 : Nat) else (magScaled uf / 2 ^ 149 : Nat)

/-- Reference definition, following the spec's words: the bit pattern of the
truncated value as a 32-bit signed integer, except that NaN / infinity
(exponent field 0xFF) and values whose truncation does not fit a 32-bit
signed integer yield the sentinel 0x80000000. -/
def f2iRef (uf : Nat) : Nat :=
  if expField uf = 0xFF ∨ floatValTrunc uf < -(2 ^ 31) ∨ (2 ^ 31 - 1 : Int) < floatValTrunc uf
  then 0x80000000
  else ((floatValTrunc uf) % (2 ^ 32 : Int)).toNat

/-- Reference definition, following the spec's words: re-encode x in n bits
(keep the low n bits) and sign-extend back to 32 bits from bit n-1. -/
def signExtend (x n : Nat) : Nat :=
  let low := x % 2 ^ n
  if low.testBit (n - 1) then low + (2 ^ 32 - 2 ^ n) else low

/-! ### Helper lemmas about the word model -/

/-- Bits at index 32 and above of a 32-bit word are clear. -/
theorem testBit_ge_32 {x : Nat} (hx : x < 2 ^ 32) {i : Nat} (hi : 32 ≤ i) :
    x.testBit i = false :=
  Nat.testBit_lt_two_pow (lt_of_lt_of_le hx (Nat.pow_le_pow_right (by norm_num) hi))

/-- Bit 31 of a 32-bit word tests whether the word is at least `2 ^ 31`. -/
theorem testBit31_eq {x : Nat} (hx : x < 2 ^ 32) :
    x.testBit 31 = decide (2 ^ 31 ≤ x) := by
  rw [Nat.testBit_to_div_mod, decide_eq_decide]
  omega

/-- The C complement of a 32-bit word is the arithmetic complement. -/
theorem not32_eq_sub {x : Nat} (hx : x < 2 ^ 32) : not32 x = 2 ^ 32 - 1 - x := by
  have h : (2 : Nat) ^ 32 - 1 - x = 2 ^ 32 - (x + 1) := by omega
  rw [h]
  apply Nat.eq_of_testBit_eq
  intro i
  rw [Nat.testBit_two_pow_sub_succ hx]
  simp only [not32, Nat.testBit_xor, Nat.testBit_two_pow_sub_one]
  rcases Nat.lt_or_ge i 32 with hi | hi
  · simp [hi]
  · simp [Nat.not_lt.mpr hi, testBit_ge_32 hx hi]

/-- The C complement of a 32-bit word is a 32-bit word. -/
theorem not32_lt {x : Nat} (hx : x < 2 ^ 32) : not32 x < 2 ^ 32 := by
  rw [not32_eq_sub hx]; omega

/-- Low bits of an arithmetic shift agree with the logical shift. -/
theorem sar_testBit_low (x n i : Nat) (h : n + i < 32) :
    (sar x n).testBit i = x.testBit (n + i) := by
  unfold sar
  split
  · have hni : ¬ (32 - n ≤ i) := by omega
    simp [hni]
  · simp

/-- High bits of an arithmetic shift replicate the sign bit. -/
theorem sar_testBit_high {x : Nat} (hx : x < 2 ^ 32) {n i : Nat} (hn : n ≤ 32)
    (h1 : 32 - n ≤ i) (h2 : i < 32) :
    (sar x n).testBit i = x.testBit 31 := by
  unfold sar
  by_cases hb : x.testBit 31 <;> simp only [hb, if_true, if_false]
  · have hge : 32 - n ≤ i := h1
    have hlt : i - (32 - n) < n := by omega
    simp [hge, hlt, testBit_ge_32 hx (show 32 ≤ n + i by omega)]
  · have : 32 ≤ n + i := by omega
    simp [testBit_ge_32 hx this]

/-- An arithmetic shift of a 32-bit word is a 32-bit word. -/
theorem sar_lt {x : Nat} (hx : x < 2 ^ 32) {n : Nat} (hn : n ≤ 32) :
    sar x n < 2 ^ 32 := by
  apply Nat.lt_pow_two_of_testBit
  intro i hi
  unfold sar
  have h1 : x.testBit (n + i) = false := testBit_ge_32 hx (by omega)
  have h2 : ¬ (i - (32 - n) < n) := by omega
  split <;> simp [h1, h2]

/-- Arithmetic value of the arithmetic shift when the sign bit is set. -/
theorem sar_eq_of_testBit {x : Nat} {n : Nat} (hb : x.testBit 31 = true)
    (hxn : x >>> n < 2 ^ (32 - n)) :
    sar x n = 2 ^ (32 - n) * (2 ^ n - 1) + x >>> n := by
  unfold sar
  rw [hb, if_pos rfl, Nat.or_comm, Nat.shiftLeft_eq,
    Nat.mul_comm ((2 : Nat) ^ n - 1) (2 ^ (32 - n))]
  exact (Nat.mul_add_lt_is_or hxn _).symm

/-- Bitwise or of values with no common bit cancels under xor. -/
theorem or_xor_cancel {a b : Nat} (h : a &&& b = 0) : (a ||| b) ^^^ a = b := by
  apply Nat.eq_of_testBit_eq
  intro i
  have ht : (a &&& b).testBit i = false := by rw [h]; simp
  simp only [Nat.testBit_and] at ht
  simp only [Nat.testBit_xor, Nat.testBit_or]
  cases ha : a.testBit i <;> cases hb : b.testBit i <;> simp_all

/-- A shifted value shares no bits with a value below the shift width. -/
theorem shiftLeft_and_eq_zero {a k c : Nat} (hc : c < 2 ^ k) : (a <<< k) &&& c = 0 := by
  apply Nat.eq_of_testBit_eq
  intro i
  simp only [Nat.testBit_and, Nat.testBit_shiftLeft, Nat.zero_testBit]
  rcases Nat.lt_or_ge i k with hik | hik
  · simp [Nat.not_le.mpr hik]
  · have : c.testBit i = false :=
      Nat.testBit_lt_two_pow (lt_of_lt_of_le hc (Nat.pow_le_pow_right (by norm_num) hik))
    simp [this]

/-- A logical right shift by n of a 32-bit word is below `2 ^ (32 - n)`. -/
theorem shiftRight_lt {x : Nat} (hx : x < 2 ^ 32) {n : Nat} (hn : n ≤ 32) :
    x >>> n < 2 ^ (32 - n) := by
  rw [Nat.shiftRight_eq_div_pow, Nat.div_lt_iff_lt_mul (Nat.pos_pow_of_pos n (by norm_num))]
  calc x < 2 ^ 32 := hx
    _ = 2 ^ (32 - n) * 2 ^ n := by rw [← Nat.pow_add]; congr 1; omega

/-! ### Claim theorems -/

/-- C8: tmax always returns 0x7FFFFFFF, the maximum 32-bit two's-complement
integer, and tmax + 1 wraps modulo 2^32 to the minimum value 0x80000000. -/
theorem tmax_spec : tmax = 0x7FFFFFFF ∧ (tmax + 1) % 2 ^ 32 = 0x80000000 := by decide

/-- C6: for all 32-bit words x and y, bitXor x y, computed with only
complement and AND, equals the native bitwise exclusive-or. -/
theorem bitXor_eq_xor (x y : Nat) (hx : x < 2 ^ 32) (hy : y < 2 ^ 32) :
    bitXor x y = x ^^^ y := by
  apply Nat.eq_of_testBit_eq
  intro i
  simp only [bitXor, not32, Nat.testBit_and, Nat.testBit_xor, Nat.testBit_two_pow_sub_one]
  rcases Nat.lt_or_ge i 32 with hi | hi
  · rw [decide_eq_true hi]
    cases hxa : x.testBit i <;> cases hyb : y.testBit i <;> rfl
  · simp [testBit_ge_32 hx hi, testBit_ge_32 hy hi, Nat.not_lt.mpr hi]

/-- Witness for C6 at the example of the source comment: bitXor 4 5 = 1. -/
theorem bitXor_eq_xor_witness : bitXor 4 5 = 1 :=
  (bitXor_eq_xor 4 5 (by norm_num) (by norm_num)).trans (by decide)

/-- C4: for all 32-bit x and n in [0, 31], logicalShift x n is the logical
(zero-filling) right shift of x by n, including the documented examples. -/
theorem logicalShift_spec (x n : Nat) (hx : x < 2 ^ 32) (hn : n ≤ 31) :
    logicalShift x n = x >>> n ∧
      logicalShift 0x87654321 4 = 0x08765432 ∧ logicalShift x 0 = x := by
  have key : ∀ m, m ≤ 31 → logicalShift x m = x >>> m := by
    intro m hm
    unfold logicalShift
    have h31 : shl32 1 31 = 2 ^ 31 := by decide
    rw [h31, Nat.and_two_pow]
    by_cases hb : x.testBit 31
    · rw [hb]
      simp only [Bool.toNat_true, one_mul]
      have hp1 : (0 : Nat) < 2 ^ (31 - m) := Nat.two_pow_pos _
      have hp2 : (2 : Nat) ^ (32 - m) = 2 * 2 ^ (31 - m) := by
        rw [show 32 - m = (31 - m) + 1 by omega, pow_succ, Nat.mul_comm]
      have hq : (2 : Nat) ^ m * 2 ^ (32 - m) = 2 ^ 32 := by
        rw [← pow_add]; congr 1; omega
      have hmaskval : (2 : Nat) ^ (32 - m) * (2 ^ m - 1) = 2 ^ 32 - 2 ^ (32 - m) := by
        rw [Nat.mul_comm, tsub_mul, one_mul, hq]
      have hx31 : (2 : Nat) ^ 31 >>> m = 2 ^ (31 - m) := by
        rw [Nat.shiftRight_eq_div_pow, Nat.pow_div hm (by norm_num)]
      have hsar31 : sar (2 ^ 31) m = (2 ^ 32 - 2 ^ (32 - m)) + 2 ^ (31 - m) := by
        rw [sar_eq_of_testBit Nat.testBit_two_pow_self
            (by rw [hx31, hp2]; omega), hmaskval, hx31]
      have hple : (2 : Nat) ^ (32 - m) ≤ 2 ^ 32 := Nat.pow_le_pow_right (by norm_num) (by omega)
      have hbitmask : shl32 (sar (2 ^ 31) m) 1 = (2 ^ m - 1) <<< (32 - m) := by
        rw [hsar31, shl32, Nat.shiftLeft_eq, pow_one, Nat.shiftLeft_eq, tsub_mul, one_mul, hq]
        rw [hp2] at hple ⊢
        omega
      rw [hbitmask]
      have hsarx : sar x m = ((2 ^ m - 1) <<< (32 - m)) ||| (x >>> m) := by
        unfold sar
        rw [if_pos hb, Nat.or_comm]
      rw [hsarx]
      exact or_xor_cancel (shiftLeft_and_eq_zero (shiftRight_lt hx (by omega)))
    · rw [Bool.eq_false_iff.mpr hb]
      simp only [Bool.toNat_false, zero_mul]
      have hsar0 : sar 0 m = 0 := by
        unfold sar
        simp
      rw [hsar0]
      have : shl32 0 1 = 0 := by decide
      rw [this, Nat.xor_zero]
      unfold sar
      rw [if_neg (by simp [hb])]
  exact ⟨key n hn, by decide, by simpa using key 0 (by norm_num)⟩

/-- Witness for C4 at the documented example input. -/
theorem logicalShift_spec_witness : logicalShift 0x87654321 4 = 0x87654321 >>> 4 :=
  (logicalShift_spec 0x87654321 4 (by norm_num) (by norm_num)).1

/-- C5: for all 32-bit x, logicalNeg x is 1 exactly on x = 0 and 0 otherwise
(including on 0x80000000); for nonzero x at least one of x and its
two's-complement negation has the sign bit set; and the documented examples. -/
theorem logicalNeg_spec (x : Nat) (hx : x < 2 ^ 32) :
    (logicalNeg x = 1 ↔ x = 0) ∧ (logicalNeg x = 0 ↔ x ≠ 0) ∧
      (x ≠ 0 → (x.testBit 31 = true ∨ ((not32 x + 1) % 2 ^ 32).testBit 31 = true)) ∧
      logicalNeg 3 = 0 ∧ logicalNeg 0 = 1 ∧
      logicalNeg (2 ^ 32 - 1) = 0 ∧ logicalNeg (2 ^ 31) = 0 := by
  have hneg : x ≠ 0 → (not32 x + 1) % 2 ^ 32 = 2 ^ 32 - x := by
    intro h0
    rw [not32_eq_sub hx]
    omega
  have hsign : x ≠ 0 → (x.testBit 31 = true ∨ ((not32 x + 1) % 2 ^ 32).testBit 31 = true) := by
    intro h0
    rcases Nat.lt_or_ge x (2 ^ 31) with h | h
    · right
      rw [hneg h0, testBit31_eq (by omega)]
      simp only [decide_eq_true_eq]
      omega
    · left
      rw [testBit31_eq hx]
      simpa using h
  have hkey : x ≠ 0 → logicalNeg x = 0 := by
    intro h0
    unfold logicalNeg
    rw [hneg h0]
    have tlt : x ||| (2 ^ 32 - x) < 2 ^ 32 := Nat.or_lt_two_pow hx (by omega)
    have ht : (x ||| (2 ^ 32 - x)).testBit 31 = true := by
      rcases hsign h0 with h | h
      · rw [Nat.testBit_or, h]
        rfl
      · rw [hneg h0] at h
        rw [Nat.testBit_or, h]
        simp
    have tge : 2 ^ 31 ≤ x ||| (2 ^ 32 - x) := Nat.testBit_implies_ge ht
    rw [sar_eq_of_testBit ht (shiftRight_lt tlt (by norm_num))]
    rw [Nat.shiftRight_eq_div_pow]
    have hdiv : (x ||| (2 ^ 32 - x)) / 2 ^ 31 = 1 := by omega
    rw [hdiv]
    norm_num
  have h0val : logicalNeg 0 = 1 := by decide
  refine ⟨⟨fun h1 => ?_, fun h0 => by rw [h0]; exact h0val⟩,
    ⟨fun h1 h0 => by rw [h0, h0val] at h1; exact one_ne_zero h1, hkey⟩,
    hsign, by decide, h0val, by decide, by decide⟩
  by_contra h0
  rw [hkey h0] at h1
  exact zero_ne_one h1

/-- Witness for C5 at the example input 3. -/
theorem logicalNeg_spec_witness : logicalNeg 3 = 0 :=
  (logicalNeg_spec 3 (by norm_num)).2.2.2.1

/-- The shift pair of twosBits is exactly sign extension of the low n bits. -/
theorem sar_shl32_signExtend (x n : Nat) (hn1 : 1 ≤ n) (hn2 : n ≤ 32) :
    sar (shl32 x (32 - n)) (32 - n) = signExtend x n := by
  have hsplit : (2 : Nat) ^ 32 = 2 ^ n * 2 ^ (32 - n) := by
    rw [← pow_add]
    congr 1
    omega
  have hys : shl32 x (32 - n) = (x % 2 ^ n) * 2 ^ (32 - n) := by
    rw [shl32, Nat.shiftLeft_eq, hsplit, Nat.mul_mod_mul_right]
  have hlow : x % 2 ^ n < 2 ^ n := Nat.mod_lt _ (Nat.two_pow_pos n)
  have hbit : ((x % 2 ^ n) * 2 ^ (32 - n)).testBit 31 = (x % 2 ^ n).testBit (n - 1) := by
    rw [Nat.testBit_to_div_mod, Nat.testBit_to_div_mod,
      show (2 : Nat) ^ 31 = 2 ^ (n - 1) * 2 ^ (32 - n) by rw [← pow_add]; congr 1; omega,
      Nat.mul_div_mul_right _ _ (Nat.two_pow_pos (32 - n))]
  have hback : ((x % 2 ^ n) * 2 ^ (32 - n)) >>> (32 - n) = x % 2 ^ n := by
    rw [Nat.shiftRight_eq_div_pow, Nat.mul_div_cancel _ (Nat.two_pow_pos (32 - n))]
  rw [hys]
  simp only [sar, signExtend]
  rw [hbit, hback]
  by_cases hb : (x % 2 ^ n).testBit (n - 1) = true
  · rw [if_pos hb, if_pos hb]
    have hmask : ((2 : Nat) ^ (32 - n) - 1) <<< (32 - (32 - n)) = 2 ^ n * (2 ^ (32 - n) - 1) := by
      rw [show 32 - (32 - n) = n by omega, Nat.shiftLeft_eq, Nat.mul_comm]
    rw [hmask, Nat.or_comm, ← Nat.mul_add_lt_is_or hlow]
    have hval : (2 : Nat) ^ n * (2 ^ (32 - n) - 1) = 2 ^ 32 - 2 ^ n := by
      rw [Nat.mul_comm, tsub_mul, one_mul, Nat.mul_comm (2 ^ (32 - n)) ((2 : Nat) ^ n), ← hsplit]
    rw [hval]
    omega
  · rw [if_neg hb, if_neg hb]

/-- C3: for all 32-bit x and n in [1, 32], twosBits x n is 1 exactly when
sign-extending the low n bits of x back to 32 bits reproduces x, and 0
otherwise; the documented examples hold, and every x fits in 32 bits. -/
theorem twosBits_spec (x n : Nat) (hx : x < 2 ^ 32) (hn1 : 1 ≤ n) (hn2 : n ≤ 32) :
    (twosBits x n = 1 ↔ signExtend x n = x) ∧
      (twosBits x n = 0 ∨ twosBits x n = 1) ∧
      twosBits 5 3 = 0 ∧ twosBits (2 ^ 32 - 4) 3 = 1 ∧ twosBits x 32 = 1 := by
  have key : ∀ m, 1 ≤ m → m ≤ 32 → (twosBits x m = 1 ↔ signExtend x m = x) := by
    intro m hm1 hm2
    have hshift : ((not32 m + 1) % 2 ^ 32 + 32) % 2 ^ 32 = 32 - m := by
      rw [not32_eq_sub (show m < 2 ^ 32 by omega)]
      omega
    simp only [twosBits]
    rw [hshift, sar_shl32_signExtend x m hm1 hm2]
    unfold bang
    split
    · rename_i h
      rw [Nat.xor_eq_zero] at h
      simp [h.symm]
    · rename_i h
      rw [Nat.xor_eq_zero] at h
      constructor
      · intro h1
        exact absurd h1 (by norm_num)
      · intro h1
        exact absurd h1.symm h
  have hbang : ∀ z, bang z = 0 ∨ bang z = 1 := by
    intro z
    unfold bang
    split <;> simp
  have h32 : signExtend x 32 = x := by
    simp only [signExtend]
    rw [Nat.mod_eq_of_lt hx]
    simp
  refine ⟨key n hn1 hn2, ?_, by decide, by decide, (key 32 (by norm_num) (le_refl 32)).mpr h32⟩
  simp only [twosBits]
  exact hbang _

/-- Witness for C3 at the documented example: -4 fits in 3 bits. -/
theorem twosBits_spec_witness : twosBits (2 ^ 32 - 4) 3 = 1 :=
  (twosBits_spec (2 ^ 32 - 4) 3 (by norm_num) (by norm_num) (by norm_num)).2.2.2.1

/-- One folding step of allEvenBits, on the relevant low bits. -/
theorem allEvenBits_step (y k i : Nat) (hi : k + i < 32) :
    (y &&& sar y k).testBit i = (y.testBit i && y.testBit (k + i)) := by
  rw [Nat.testBit_and, sar_testBit_low _ _ _ hi]

/-- C7: for all 32-bit x, allEvenBits x is 1 exactly when every even-indexed
bit of x (indices 0, 2, ..., 30) is 1, and 0 otherwise; the documented
examples hold. -/
theorem allEvenBits_spec (x : Nat) (hx : x < 2 ^ 32) :
    (allEvenBits x = 1 ↔ ∀ i, i < 16 → x.testBit (2 * i) = true) ∧
      (allEvenBits x = 0 ∨ allEvenBits x = 1) ∧
      allEvenBits 0xFFFFFFFE = 0 ∧ allEvenBits 0x55555555 = 1 ∧
      allEvenBits 0xFFFFFFFF = 1 := by
  have hle : allEvenBits x ≤ 1 := by
    simp only [allEvenBits, Nat.and_one_is_mod]
    omega
  have hiff : allEvenBits x = 1 ↔ ∀ i, i < 16 → x.testBit (2 * i) = true := by
    simp only [allEvenBits]
    rw [Nat.and_one_is_mod, Nat.mod_two_eq_one_iff_testBit_zero]
    rw [allEvenBits_step _ 2 0 (by norm_num)]
    simp only [Nat.reduceAdd]
    rw [allEvenBits_step _ 4 0 (by norm_num), allEvenBits_step _ 4 2 (by norm_num)]
    simp only [Nat.reduceAdd]
    rw [allEvenBits_step _ 8 0 (by norm_num), allEvenBits_step _ 8 2 (by norm_num),
      allEvenBits_step _ 8 4 (by norm_num), allEvenBits_step _ 8 6 (by norm_num)]
    simp only [Nat.reduceAdd]
    rw [allEvenBits_step _ 16 0 (by norm_num), allEvenBits_step _ 16 2 (by norm_num),
      allEvenBits_step _ 16 4 (by norm_num), allEvenBits_step _ 16 6 (by norm_num),
      allEvenBits_step _ 16 8 (by norm_num), allEvenBits_step _ 16 10 (by norm_num),
      allEvenBits_step _ 16 12 (by norm_num), allEvenBits_step _ 16 14 (by norm_num)]
    simp only [Nat.reduceAdd]
    constructor
    · intro h i hi
      simp only [Bool.and_eq_true] at h
      interval_cases i <;> simp_all
    · intro h
      have h0 := h 0 (by norm_num)
      have h1 := h 1 (by norm_num)
      have h2 := h 2 (by norm_num)
      have h3 := h 3 (by norm_num)
      have h4 := h 4 (by norm_num)
      have h5 := h 5 (by norm_num)
      have h6 := h 6 (by norm_num)
      have h7 := h 7 (by norm_num)
      have h8 := h 8 (by norm_num)
      have h9 := h 9 (by norm_num)
      have h10 := h 10 (by norm_num)
      have h11 := h 11 (by norm_num)
      have h12 := h 12 (by norm_num)
      have h13 := h 13 (by norm_num)
      have h14 := h 14 (by norm_num)
      have h15 := h 15 (by norm_num)
      norm_num at h0 h1 h2 h3 h4 h5 h6 h7 h8 h9 h10 h11 h12 h13 h14 h15
      simp [h0, h1, h2, h3, h4, h5, h6, h7, h8, h9, h10, h11, h12, h13, h14, h15]
  exact ⟨hiff, by omega, by decide, by decide, by decide⟩

/-- Witness for C7 at the documented example input 0x55555555. -/
theorem allEvenBits_spec_witness : allEvenBits 0x55555555 = 1 :=
  (allEvenBits_spec 0x55555555 (by norm_num)).2.2.2.1

/-! ### Lemmas about the float decoder -/

/-- A word with a nonzero exponent field is nonzero. -/
theorem uf_ne_zero_of_expField {uf : Nat} (h : expField uf ≠ 0) : uf ≠ 0 := by
  intro h0
  subst h0
  exact h (by decide)

/-- The sign test of floatFloat2Int isolates bit 31. -/
theorem negSign_eq (uf : Nat) : uf &&& shl32 1 31 = (uf.testBit 31).toNat * 2 ^ 31 := by
  rw [show shl32 1 31 = 2 ^ 31 from by decide, Nat.and_two_pow]

/-- Below the normalized range the scaled magnitude truncates to zero. -/
theorem magScaled_small (uf : Nat) (h : expField uf ≤ 126) : magScaled uf / 2 ^ 149 = 0 := by
  apply Nat.div_eq_of_lt
  have hf : fracField uf ≤ 0x7FFFFF := Nat.and_le_right
  simp only [magScaled]
  split
  · omega
  · have h1 : 2 ^ 23 + fracField uf ≤ 2 ^ 24 - 1 := by omega
    have h2 : (2 : Nat) ^ (expField uf - 1) ≤ 2 ^ 125 :=
      Nat.pow_le_pow_right (by norm_num) (by omega)
    calc (2 ^ 23 + fracField uf) * 2 ^ (expField uf - 1) ≤ (2 ^ 24 - 1) * 2 ^ 125 :=
        Nat.mul_le_mul h1 h2
      _ < 2 ^ 149 := by norm_num

/-- At unbiased exponent 31 and above the truncated magnitude reaches 2^31. -/
theorem magScaled_big (uf : Nat) (hge : 158 ≤ expField uf) :
    2 ^ 31 ≤ magScaled uf / 2 ^ 149 := by
  have hE0 : expField uf ≠ 0 := by omega
  simp only [magScaled, if_neg hE0]
  have h1 : (2 : Nat) ^ 180 ≤ (2 ^ 23 + fracField uf) * 2 ^ (expField uf - 1) := by
    calc (2 : Nat) ^ 180 = 2 ^ 23 * 2 ^ 157 := by rw [← pow_add]
      _ ≤ (2 ^ 23 + fracField uf) * 2 ^ (expField uf - 1) :=
          Nat.mul_le_mul (by omega) (Nat.pow_le_pow_right (by norm_num) (by omega))
  calc (2 : Nat) ^ 31 = 2 ^ 180 / 2 ^ 149 := by
        rw [Nat.pow_div (by norm_num) (by norm_num)]
      _ ≤ (2 ^ 23 + fracField uf) * 2 ^ (expField uf - 1) / 2 ^ 149 :=
        Nat.div_le_div_right h1

/-- When the truncated magnitude is zero, the reference conversion returns 0. -/
theorem f2iRef_of_small (uf : Nat) (hFF : expField uf ≠ 0xFF)
    (hsm : magScaled uf / 2 ^ 149 = 0) : f2iRef uf = 0 := by
  have ht : floatValTrunc uf = 0 := by
    simp only [floatValTrunc, hsm]
    split <;> simp
  simp only [f2iRef, ht]
  rw [if_neg (by push_neg; exact ⟨hFF, by norm_num, by norm_num⟩)]
  norm_num

/-- In the normalized in-range case the shifted significand of floatFloat2Int
equals the truncated scaled magnitude and lies in [1, 2^31). -/
theorem mantShift_eq (uf : Nat) (hlo : 127 ≤ expField uf) (hhi : expField uf ≤ 157) :
    mantShift uf = magScaled uf / 2 ^ 149 ∧ 1 ≤ mantShift uf ∧ mantShift uf < 2 ^ 31 := by
  have hf : fracField uf ≤ 0x7FFFFF := Nat.and_le_right
  have hfrac : fracField uf < 2 ^ 23 := by omega
  have hE0 : expField uf ≠ 0 := by omega
  have hor : fracField uf ||| 0x800000 = 2 ^ 23 + fracField uf := by
    rw [Nat.or_comm, show (0x800000 : Nat) = 2 ^ 23 * 1 by norm_num,
      ← Nat.mul_add_lt_is_or hfrac 1]
    omega
  simp only [mantShift, magScaled, if_neg hE0, hor]
  by_cases hc : 150 < expField uf
  · rw [if_pos (by omega : (23 : Int) < (expField uf : Int) - 127),
      show ((expField uf : Int) - 127 - 23).toNat = expField uf - 150 by omega,
      Nat.shiftLeft_eq]
    have hb : (2 ^ 23 + fracField uf) * 2 ^ (expField uf - 150) < 2 ^ 31 := by
      calc (2 ^ 23 + fracField uf) * 2 ^ (expField uf - 150) ≤ (2 ^ 24 - 1) * 2 ^ 7 :=
          Nat.mul_le_mul (by omega) (Nat.pow_le_pow_right (by norm_num) (by omega))
        _ < 2 ^ 31 := by norm_num
    rw [Nat.mod_eq_of_lt (by omega)]
    refine ⟨?_, ?_, hb⟩
    · rw [show expField uf - 1 = (expField uf - 150) + 149 by omega, pow_add,
        ← Nat.mul_assoc, Nat.mul_div_cancel _ (Nat.two_pow_pos 149)]
    · have := Nat.mul_pos (show 0 < 2 ^ 23 + fracField uf by positivity)
        (Nat.two_pow_pos (expField uf - 150))
      omega
  · rw [if_neg (by omega : ¬ ((23 : Int) < (expField uf : Int) - 127)),
      show ((23 : Int) - ((expField uf : Int) - 127)).toNat = 150 - expField uf by omega,
      Nat.shiftRight_eq_div_pow]
    have hdivle := Nat.div_le_self (2 ^ 23 + fracField uf) (2 ^ (150 - expField uf))
    refine ⟨?_, ?_, by omega⟩
    · rw [show (2 : Nat) ^ 149 = 2 ^ (150 - expField uf) * 2 ^ (expField uf - 1) by
        rw [← pow_add]; congr 1; omega,
        Nat.mul_div_mul_right _ _ (Nat.two_pow_pos (expField uf - 1))]
    · rw [Nat.le_div_iff_mul_le (Nat.two_pow_pos (150 - expField uf)), one_mul]
      calc (2 : Nat) ^ (150 - expField uf) ≤ 2 ^ 23 :=
          Nat.pow_le_pow_right (by norm_num) (by omega)
        _ ≤ 2 ^ 23 + fracField uf := by omega

/-- Evaluation of floatFloat2Int on the normalized in-range branch. -/
theorem floatFloat2Int_main (uf : Nat) (hlo : 127 ≤ expField uf)
    (hhi : expField uf ≤ 157) :
    floatFloat2Int uf =
      if uf.testBit 31 then 2 ^ 32 - mantShift uf else mantShift uf := by
  obtain ⟨-, hm1, hm31⟩ := mantShift_eq uf hlo hhi
  have h0 : uf ≠ 0 := uf_ne_zero_of_expField (by omega)
  simp only [floatFloat2Int]
  rw [if_neg h0, if_neg (by omega : ¬ expField uf = 0xFF),
    if_neg (by omega : ¬ expField uf = 0),
    if_neg (by omega : ¬ ((expField uf : Int) - 127 < 0)),
    if_neg (by omega : ¬ ((31 : Int) ≤ (expField uf : Int) - 127)),
    negSign_eq]
  by_cases hs : uf.testBit 31 = true
  · have hcond : (uf.testBit 31).toNat * 2 ^ 31 ≠ 0 := by
      rw [hs]
      norm_num
    rw [if_pos hcond, if_pos hs, not32_eq_sub (by omega : mantShift uf < 2 ^ 32)]
    omega
  · have hcond : ¬ ((uf.testBit 31).toNat * 2 ^ 31 ≠ 0) := by
      rw [Bool.not_eq_true] at hs
      rw [hs]
      norm_num
    have hdiv : mantShift uf >>> 31 = 0 := by
      rw [Nat.shiftRight_eq_div_pow]
      exact Nat.div_eq_of_lt hm31
    rw [if_neg hcond, if_neg hs, if_neg (by simp [hdiv])]

/-- C1: for every 32-bit word uf read as an IEEE-754 single-precision bit
pattern, floatFloat2Int uf is the bit pattern of the value truncated toward
zero, with NaN, infinity and out-of-range inputs mapped to 0x80000000, and
the documented concrete examples hold (0xBFC00000 encodes -1.5, whose result
0xFFFFFFFF is the bit pattern of -1). -/
theorem floatFloat2Int_correct (uf : Nat) (hx : uf < 2 ^ 32) :
    floatFloat2Int uf = f2iRef uf ∧
      floatFloat2Int 0x3F800000 = 1 ∧ floatFloat2Int 0xBFC00000 = 0xFFFFFFFF ∧
      floatFloat2Int 0x7F800000 = 0x80000000 ∧ floatFloat2Int 0 = 0 := by
  refine ⟨?_, by decide, by decide, by decide, by decide⟩
  by_cases h0 : uf = 0
  · subst h0
    decide
  have hE255 : expField uf ≤ 255 := Nat.and_le_right
  by_cases hFF : expField uf = 0xFF
  · have hcode : floatFloat2Int uf = 0x80000000 := by
      simp only [floatFloat2Int]
      rw [if_neg h0, if_pos hFF]
    rw [hcode, f2iRef, if_pos (Or.inl hFF)]
  by_cases hsm : expField uf ≤ 126
  · rw [f2iRef_of_small uf hFF (magScaled_small uf hsm)]
    simp only [floatFloat2Int]
    rw [if_neg h0, if_neg hFF]
    by_cases hE0 : expField uf = 0
    · rw [if_pos hE0]
    · rw [if_neg hE0, if_pos (by omega : (expField uf : Int) - 127 < 0)]
  by_cases hbig : 158 ≤ expField uf
  · have hcode : floatFloat2Int uf = 0x80000000 := by
      simp only [floatFloat2Int]
      rw [if_neg h0, if_neg hFF, if_neg (by omega : ¬ expField uf = 0),
        if_neg (by omega : ¬ ((expField uf : Int) - 127 < 0)),
        if_pos (by omega : (31 : Int) ≤ (expField uf : Int) - 127)]
    rw [hcode]
    have hm := magScaled_big uf hbig
    by_cases hs : uf.testBit 31 = true
    · have ht : floatValTrunc uf = -(magScaled uf / 2 ^ 149 : Nat) := by
        simp only [floatValTrunc, if_pos hs]
      simp only [f2iRef, ht]
      rcases Nat.lt_or_ge (2 ^ 31) (magScaled uf / 2 ^ 149) with hMgt | hMle
      · rw [if_pos (Or.inr (Or.inl (by omega)))]
      · have hMeq : magScaled uf / 2 ^ 149 = 2 ^ 31 := by omega
        rw [if_neg (by push_neg; exact ⟨hFF, by omega, by omega⟩), hMeq]
        decide
    · have ht : floatValTrunc uf = (magScaled uf / 2 ^ 149 : Nat) := by
        simp only [floatValTrunc, if_neg hs]
      simp only [f2iRef, ht]
      rw [if_pos (Or.inr (Or.inr (by omega)))]
  · have hlo : 127 ≤ expField uf := by omega
    have hhi : expField uf ≤ 157 := by omega
    obtain ⟨hmd, hm1, hm31⟩ := mantShift_eq uf hlo hhi
    rw [floatFloat2Int_main uf hlo hhi]
    by_cases hs : uf.testBit 31 = true
    · have ht : floatValTrunc uf = -(magScaled uf / 2 ^ 149 : Nat) := by
        simp only [floatValTrunc, if_pos hs]
      simp only [f2iRef, ht, if_pos hs, ← hmd]
      rw [if_neg (by push_neg; exact ⟨hFF, by omega, by omega⟩)]
      omega
    · have ht : floatValTrunc uf = (magScaled uf / 2 ^ 149 : Nat) := by
        simp only [floatValTrunc, if_neg hs]
      simp only [f2iRef, ht, if_neg hs, ← hmd]
      rw [if_neg (by push_neg; exact ⟨hFF, by omega, by omega⟩)]
      omega

/-- Witness for C1 at uf = 0x3F800000, the bit pattern of 1.0f. -/
theorem floatFloat2Int_correct_witness :
    floatFloat2Int 0x3F800000 = f2iRef 0x3F800000 :=
  (floatFloat2Int_correct 0x3F800000 (by norm_num)).1

/-- C2: every input whose exponent field is 0xFF (NaN or infinity), and every
normalized input with unbiased exponent at least 31, yields the sentinel
0x80000000; in the latter case the scaled magnitude of the encoded value
strictly exceeds the scaled largest representable signed 32-bit integer. -/
theorem floatFloat2Int_sentinel (uf : Nat) (hx : uf < 2 ^ 32)
    (hcase : expField uf = 0xFF ∨ (158 ≤ expField uf ∧ expField uf ≤ 0xFE)) :
    floatFloat2Int uf = 0x80000000 ∧
      (158 ≤ expField uf → expField uf ≤ 0xFE →
        (2 ^ 31 - 1) * 2 ^ 149 < magScaled uf) := by
  constructor
  · have h0 : uf ≠ 0 := uf_ne_zero_of_expField (by omega)
    simp only [floatFloat2Int]
    rw [if_neg h0]
    rcases hcase with hFF | ⟨hge, hle⟩
    · rw [if_pos hFF]
    · rw [if_neg (by omega : ¬ expField uf = 0xFF), if_neg (by omega : ¬ expField uf = 0),
        if_neg (by omega : ¬ ((expField uf : Int) - 127 < 0)),
        if_pos (by omega : (31 : Int) ≤ (expField uf : Int) - 127)]
  · intro hge hle
    have h1 : (2 : Nat) ^ 180 ≤ magScaled uf := by
      simp only [magScaled, if_neg (by omega : ¬ expField uf = 0)]
      have h2 : (2 : Nat) ^ 157 ≤ 2 ^ (expField uf - 1) :=
        Nat.pow_le_pow_right (by norm_num) (by omega)
      calc (2 : Nat) ^ 180 = 2 ^ 23 * 2 ^ 157 := by rw [← pow_add]
        _ ≤ (2 ^ 23 + fracField uf) * 2 ^ (expField uf - 1) :=
          Nat.mul_le_mul (by omega) h2
    calc ((2 : Nat) ^ 31 - 1) * 2 ^ 149 < 2 ^ 180 := by norm_num
      _ ≤ magScaled uf := h1

/-- Witness for C2 at uf = 0x4F000000, a normalized pattern with unbiased
exponent 31 (the value 2^31). -/
theorem floatFloat2Int_sentinel_witness :
    floatFloat2Int 0x4F000000 = 0x80000000 ∧
      (158 ≤ expField 0x4F000000 → expField 0x4F000000 ≤ 0xFE →
        (2 ^ 31 - 1) * 2 ^ 149 < magScaled 0x4F000000) :=
  floatFloat2Int_sentinel 0x4F000000 (by norm_num) (Or.inr (by decide))

/-- C9: every input with exponent field 0 and the sign bit set (in particular
0x80000000, the bit pattern of -0.0f) falls through the uf == 0 test into the
denormalized branch and returns 0. -/
theorem floatFloat2Int_negZero (uf : Nat) (hexp : expField uf = 0)
    (hsign : uf.testBit 31 = true) : floatFloat2Int uf = 0 := by
  have h0 : uf ≠ 0 := by
    intro h
    subst h
    exact absurd hsign (by decide)
  simp only [floatFloat2Int]
  rw [if_neg h0, if_neg (by omega : ¬ expField uf = 0xFF), if_pos hexp]

/-- Witness for C9 at uf = 0x80000000, the bit pattern of negative zero. -/
theorem floatFloat2Int_negZero_witness : floatFloat2Int 0x80000000 = 0 :=
  floatFloat2Int_negZero 0x80000000 (by decide) (by decide)

/-- C10: the final overflow guard of floatFloat2Int is unreachable: on every
input that reaches it (sign bit clear, exponent field in [127, 157], hence
unbiased exponent in [0, 30]) the computed magnitude is below 2^31, its bit 31
is 0, and the function returns the magnitude rather than the sentinel. -/
theorem floatFloat2Int_guard_unreachable (uf : Nat) (hx : uf < 2 ^ 32)
    (hsign : uf.testBit 31 = false) (hlo : 127 ≤ expField uf)
    (hhi : expField uf ≤ 157) :
    mantShift uf < 2 ^ 31 ∧ mantShift uf >>> 31 = 0 ∧
      floatFloat2Int uf = mantShift uf := by
  obtain ⟨-, -, hm31⟩ := mantShift_eq uf hlo hhi
  refine ⟨hm31, ?_, ?_⟩
  · rw [Nat.shiftRight_eq_div_pow]
    exact Nat.div_eq_of_lt hm31
  · rw [floatFloat2Int_main uf hlo hhi, if_neg (by simp [hsign])]

/-- Witness for C10 at uf = 0x3F800000, the bit pattern of 1.0f. -/
theorem floatFloat2Int_guard_unreachable_witness :
    mantShift 0x3F800000 < 2 ^ 31 ∧ mantShift 0x3F800000 >>> 31 = 0 ∧
      floatFloat2Int 0x3F800000 = mantShift 0x3F800000 :=
  floatFloat2Int_guard_unreachable 0x3F800000 (by norm_num) (by decide)
    (by decide) (by decide)

end Bits
